import Mathlib

/-!
# Verification of the audio-to-PDF extraction/matching pipeline

Shallow embedding of the decision logic of `src/main.py`:

* `extract_data` — entity pass, phone/email regex scans, date fallback,
  document-type classification and invoice amount fallback;
* `match_template` — cosine-similarity argmax over a template catalog;
* the JSON serialization of the extracted field map (`json.dump` /
  `json.load` restricted to string-to-string objects, the only shape the
  program ever serializes);
* the document-type dispatch of `generate_pdf`.

Modelling conventions:

* A Python `dict` with string keys and values is an insertion-ordered
  association list `FieldMap`; `dictSet` is `d[k] = v` (update in place,
  append if fresh), `hasKey` is `k in d`, `dictGet` is `d.get(k)`.
* The spaCy NER collaborator is external: its output is passed to
  `extract_data` as an explicit list of `(text, label_)` entities.
* `datetime.now().strftime("%B %d, %Y")` is external and nondeterministic:
  the formatted current date is passed as the explicit parameter `today`.
* The three `re.search` calls are embedded as dedicated matchers with
  Python's leftmost / greedy / backtracking semantics specialized to the
  three concrete patterns of the source.  `\d`, `\s` and `str.lower` are
  modelled at ASCII level (the transcripts the program handles are ASCII;
  the claims do not depend on the difference).
* The sentence-transformers embedding model is external: `match_template`
  takes the encoder as a function into `ℝ^n`; `util.pytorch_cos_sim` is
  real cosine similarity.
-/

/-! ## Python dict model -/

/-- A Python `dict[str, str]`: insertion-ordered association list. -/
abbrev FieldMap := List (String × String)

/-- Python `k in d` on a dict. -/
def hasKey (k : String) : FieldMap → Bool
  | [] => false
  | (k', _) :: rest => k' = k || hasKey k rest

/-- Python `d.get(k)` on a dict. -/
def dictGet (k : String) : FieldMap → Option String
  | [] => none
  | (k', v) :: rest => if k' = k then some v else dictGet k rest

/-- Python `d[k] = v` on a dict: update in place if the key is present,
append at the end otherwise. -/
def dictSet (k v : String) : FieldMap → FieldMap
  | [] => [(k, v)]
  | (k', v') :: rest => if k' = k then (k', v) :: rest else (k', v') :: dictSet k v rest

/-- The keys of a dict, in insertion order. -/
def dictKeys (m : FieldMap) : List String := m.map Prod.fst

/-! ## ASCII string helpers -/

/-- ASCII model of `str.lower` on a single character. -/
def asciiLowerChar (c : Char) : Char :=
  if 'A' ≤ c ∧ c ≤ 'Z' then Char.ofNat (c.toNat + 32) else c

/-- ASCII model of `text.lower()`. -/
def asciiLower (s : String) : String := String.mk (s.data.map asciiLowerChar)

/-- Test that `p` starts `s`. -/
def listPrefixOf : List Char → List Char → Bool
  | [], _ => true
  | _ :: _, [] => false
  | p :: ps, c :: cs => p = c && listPrefixOf ps cs

/-- Test that `p` occurs contiguously somewhere in `s`. -/
def listInfixOf (pat : List Char) : List Char → Bool
  | [] => listPrefixOf pat []
  | c :: cs => listPrefixOf pat (c :: cs) || listInfixOf pat cs

/-- Python's `pat in s` substring test on strings. -/
def strContainsSub (s pat : String) : Bool := listInfixOf pat.data s.data

/-! ## Character classes of the source's regex patterns (ASCII model) -/

/-- Class `\d` -/
def digitC (c : Char) : Bool := '0' ≤ c && c ≤ '9'

/-- Class `\s` -/
def spaceC (c : Char) : Bool :=
  c = ' ' || c = '\t' || c = '\n' || c = '\r' || c = '\x0b' || c = '\x0c'

/-- Class `[\s-]` -/
def sepC (c : Char) : Bool := spaceC c || c = '-'

/-- Class `[a-zA-Z]` -/
def letterC (c : Char) : Bool := ('a' ≤ c && c ≤ 'z') || ('A' ≤ c && c ≤ 'Z')

/-- A single-character literal class. -/
def chC (ch : Char) (c : Char) : Bool := c = ch

/-- A character class: one character consumed per class. -/
abbrev CClass := Char → Bool

/-! ## The phone pattern `(\+?\d{1,2}\s?)?\(?\d{3}\)?[\s-]?\d{3}[\s-]?\d{4}`

The pattern is loop-free, so Python's backtracking tries the finitely many
expansions of the optional parts in lexicographic order (leftmost choice
point most significant, "present" preferred over "absent", longer `\d{1,2}`
preferred).  We enumerate the expansions in exactly that order. -/

/-- Sequencing of alternative lists, preserving preference order. -/
def seqAlts (xs ys : List (List CClass)) : List (List CClass) :=
  xs.flatMap fun a => ys.map fun b => a ++ b

/-- Optional `x?` : present first, then absent. -/
def opt1 (x : List CClass) : List (List CClass) := [x, []]

/-- Expansions of the optional group `(\+?\d{1,2}\s?)?`. -/
def phoneGroup1 : List (List CClass) :=
  (seqAlts (opt1 [chC '+']) (seqAlts [[digitC, digitC], [digitC]] (opt1 [spaceC]))) ++ [[]]

/-- All expansions of the phone pattern, in Python's backtracking order. -/
def phoneAlts : List (List CClass) :=
  seqAlts phoneGroup1
    (seqAlts (opt1 [chC '('])
      (seqAlts [[digitC, digitC, digitC]]
        (seqAlts (opt1 [chC ')'])
          (seqAlts (opt1 [sepC])
            (seqAlts [[digitC, digitC, digitC]]
              (seqAlts (opt1 [sepC]) [[digitC, digitC, digitC, digitC]]))))))

/-- Match a fixed sequence of one-character classes at the head of `s`. -/
def matchClasses : List CClass → List Char → Bool
  | [], _ => true
  | _ :: _, [] => false
  | p :: ps, c :: cs => p c && matchClasses ps cs

/-- First expansion that matches at the current position; returns its length. -/
def tryAlts : List (List CClass) → List Char → Option Nat
  | [], _ => none
  | a :: rest, s => if matchClasses a s then some a.length else tryAlts rest s

/-- Model of `re.search` for a loop-free alternation: leftmost start position wins,
then the first expansion in backtracking order; returns `group(0)`. -/
def reSearchAlts (alts : List (List CClass)) : List Char → Option (List Char)
  | [] => match tryAlts alts [] with
    | some _ => some []
    | none => none
  | c :: cs => match tryAlts alts (c :: cs) with
    | some n => some ((c :: cs).take n)
    | none => reSearchAlts alts cs

/-- Model of `re.search(r"(\+?\d{1,2}\s?)?\(?\d{3}\)?[\s-]?\d{3}[\s-]?\d{4}", text)`,
returning `group(0)`. -/
def phoneSearch (text : String) : Option String :=
  (reSearchAlts phoneAlts text.data).map fun l => String.mk l

/-! ## The email pattern `[a-zA-Z0-9._%+-]+@[a-zA-Z0-9.-]+\.[a-zA-Z]{2,}` -/

/-- Class `[a-zA-Z0-9._%+-]` -/
def emailLocalC (c : Char) : Bool :=
  letterC c || digitC c || c = '.' || c = '_' || c = '%' || c = '+' || c = '-'

/-- Class `[a-zA-Z0-9.-]` -/
def emailDomainC (c : Char) : Bool := letterC c || digitC c || c = '.' || c = '-'

/-- Length of the maximal run of characters of class `p` (a greedy `p*`). -/
def takeRun (p : Char → Bool) : List Char → Nat
  | [] => 0
  | c :: cs => if p c then takeRun p cs + 1 else 0

/-- Backtracking of the greedy `[a-zA-Z0-9.-]+` against the tail
`\.[a-zA-Z]{2,}`: try the run length `k` from maximal down to 1; the
final `[a-zA-Z]{2,}` is greedy and last, so it takes the maximal letter
run.  Returns the number of characters consumed after the `@`. -/
def emailTail (t : List Char) : Nat → Option Nat
  | 0 => none
  | k + 1 =>
    match t.drop (k + 1) with
    | c :: u =>
      if c = '.' then
        let lt := takeRun letterC u
        if 2 ≤ lt then some (k + 1 + 1 + lt) else emailTail t k
      else emailTail t k
    | [] => emailTail t k

/-- Match length of the email pattern anchored at the current position.
The local part `[a-zA-Z0-9._%+-]+` can only be followed by `@` at its
maximal extent (`@` is not in the class), so it needs no backtracking. -/
def emailMatchAt (s : List Char) : Option Nat :=
  let r := takeRun emailLocalC s
  if r = 0 then none
  else match s.drop r with
    | c :: t =>
      if c = '@' then (emailTail t (takeRun emailDomainC t)).map fun n => r + 1 + n
      else none
    | [] => none

/-- Leftmost search for the email pattern. -/
def emailSearchAux : List Char → Option (List Char)
  | [] => none
  | c :: cs => match emailMatchAt (c :: cs) with
    | some n => some ((c :: cs).take n)
    | none => emailSearchAux cs

/-- Model of `re.search(r"[a-zA-Z0-9._%+-]+@[a-zA-Z0-9.-]+\.[a-zA-Z]{2,}", text)`,
returning `group(0)`. -/
def emailSearch (text : String) : Option String :=
  (emailSearchAux text.data).map fun l => String.mk l

/-! ## The amount pattern
`\$\s*\d+(?:,\d{3})*(?:\.\d{2})?|\d+(?:,\d{3})*(?:\.\d{2})?\s*dollars` -/

/-- Characters consumed by the maximal greedy `(?:,\d{3})*`. -/
def commaReps : List Char → Nat
  | c :: a :: b :: d :: rest =>
    if c = ',' && digitC a && digitC b && digitC d then 4 + commaReps rest else 0
  | _ => 0

/-- Characters consumed by `(?:\.\d{2})` if it matches here, else 0. -/
def decTail : List Char → Nat
  | c :: a :: b :: _ => if c = '.' && digitC a && digitC b then 3 else 0
  | _ => 0

/-- First alternative `\$\s*\d+(?:,\d{3})*(?:\.\d{2})?` anchored here.
Every quantifier is greedy and nothing follows them, so the greedy
maximal expansion is the match Python returns. -/
def branch1At : List Char → Option Nat
  | [] => none
  | c :: t =>
    if c = '$' then
      let w := takeRun spaceC t
      let u := t.drop w
      let d := takeRun digitC u
      if d = 0 then none
      else
        let u2 := u.drop d
        let cr := commaReps u2
        let dc := decTail (u2.drop cr)
        some (1 + w + d + cr + dc)
    else none

/-- The literal `dollars`. -/
def dollarsLit : List Char := ['d', 'o', 'l', 'l', 'a', 'r', 's']

/-- Tail `\s*dollars` anchored at `u` (the `\s*` is greedy; giving back a
whitespace character can never expose a `d`, so it is deterministic). -/
def branch2Tail (u : List Char) : Option Nat :=
  let w := takeRun spaceC u
  if listPrefixOf dollarsLit (u.drop w) then some (w + 7) else none

/-- Tail `(?:\.\d{2})?\s*dollars` anchored at `u`: try the optional decimal
part present first, then absent. -/
def branch2Dec (u : List Char) : Option Nat :=
  if decTail u = 3 then
    match branch2Tail (u.drop 3) with
    | some n => some (3 + n)
    | none => branch2Tail u
  else branch2Tail u

/-- Backtracking of `(?:,\d{3})*` in the second alternative: try `j`
repetitions from maximal down to 0. -/
def branch2Commas (u : List Char) : Nat → Option Nat
  | 0 => branch2Dec u
  | j + 1 =>
    match branch2Dec (u.drop (4 * (j + 1))) with
    | some n => some (4 * (j + 1) + n)
    | none => branch2Commas u j

/-- Backtracking of the leading greedy `\d+` in the second alternative:
try `d` digits from maximal down to 1. -/
def branch2Digits (s : List Char) : Nat → Option Nat
  | 0 => none
  | d + 1 =>
    let u := s.drop (d + 1)
    match branch2Commas u (commaReps u / 4) with
    | some n => some (d + 1 + n)
    | none => branch2Digits s d

/-- Second alternative `\d+(?:,\d{3})*(?:\.\d{2})?\s*dollars` anchored here. -/
def branch2At (s : List Char) : Option Nat :=
  branch2Digits s (takeRun digitC s)

/-- Match length of the amount pattern anchored here: the first
alternative of the `|` is preferred. -/
def amountMatchAt (s : List Char) : Option Nat :=
  match branch1At s with
  | some n => some n
  | none => branch2At s

/-- Leftmost search for the amount pattern. -/
def amountSearchAux : List Char → Option (List Char)
  | [] => none
  | c :: cs => match amountMatchAt (c :: cs) with
    | some n => some ((c :: cs).take n)
    | none => amountSearchAux cs

/-- Model of `re.search` for the currency-amount fallback pattern, `group(0)`. -/
def amountSearch (text : String) : Option String :=
  (amountSearchAux text.data).map fun l => String.mk l

/-! ## The field extractor `extract_data` -/

/-- A named entity produced by the external spaCy NER collaborator:
`(ent.text, ent.label_)`. -/
structure Entity where
  text : String
  label_ : String
deriving DecidableEq

/-- One iteration of the `for ent in doc.ents` loop of `extract_data`. -/
def entStep (data : FieldMap) (e : Entity) : FieldMap :=
  if e.label_ == "PERSON" && !hasKey "Name" data then dictSet "Name" e.text data
  else if e.label_ == "DATE" && !hasKey "Date" data then dictSet "Date" e.text data
  else if e.label_ == "ORG" && !hasKey "Organization" data then dictSet "Organization" e.text data
  else if e.label_ == "GPE" && !hasKey "Location" data then dictSet "Location" e.text data
  else if e.label_ == "MONEY" && !hasKey "Amount" data then dictSet "Amount" e.text data
  else data

/-- The `for ent in doc.ents` loop of `extract_data`, started on the empty
dict. -/
def entityPhase (ents : List Entity) : FieldMap := ents.foldl entStep []

/-- The phone-number scan of `extract_data`:
`data["Phone"] = phone_match.group(0)` when the pattern matches. -/
def phonePhase (text : String) (data : FieldMap) : FieldMap :=
  match phoneSearch text with
  | some p => dictSet "Phone" p data
  | none => data

/-- The email scan of `extract_data`. -/
def emailPhase (text : String) (data : FieldMap) : FieldMap :=
  match emailSearch text with
  | some e => dictSet "Email" e data
  | none => data

/-- The current-date fallback of `extract_data`:
`if "Date" not in data: data["Date"] = datetime.now().strftime(...)`. -/
def datePhase (today : String) (data : FieldMap) : FieldMap :=
  if hasKey "Date" data then data else dictSet "Date" today data

/-- Condition `"invoice" in text.lower() or "bill" in text.lower() or "payment" in text.lower()` of the source. -/
def invoiceCond (text : String) : Bool :=
  strContainsSub (asciiLower text) "invoice" || strContainsSub (asciiLower text) "bill" ||
    strContainsSub (asciiLower text) "payment"

/-- Condition `"agreement" in text.lower() or "contract" in text.lower()` of the source. -/
def agreementCond (text : String) : Bool :=
  strContainsSub (asciiLower text) "agreement" || strContainsSub (asciiLower text) "contract"

/-- The document-type classification of `extract_data`, including the
invoice-only amount fallback scan. -/
def docTypePhase (text : String) (data : FieldMap) : FieldMap :=
  if invoiceCond text then
    let data := dictSet "Document_Type" "Invoice" data
    if hasKey "Amount" data then data
    else match amountSearch text with
      | some a => dictSet "Amount" a data
      | none => data
  else if agreementCond text then dictSet "Document_Type" "Agreement" data
  else dictSet "Document_Type" "Application" data

/-- Function `extract_data(text)` of `src/main.py`, as the composition of its
sequential steps.  `ents` is the entity sequence returned by the external
NER collaborator for `text`, in document order; `today` is
`datetime.now().strftime("%B %d, %Y")` at extraction time. -/
def extract_data (text : String) (ents : List Entity) (today : String) : FieldMap :=
  docTypePhase text (datePhase today (emailPhase text (phonePhase text (entityPhase ents))))

example : dictGet "Document_Type"
    (extract_data "I need an invoice for $1,500 for web development." [] "May 1, 2025")
    = some "Invoice" := by decide

example : dictGet "Amount"
    (extract_data "I need an invoice for $1,500 for web development." [] "May 1, 2025")
    = some "$1,500" := by decide

example : dictGet "Phone"
    (extract_data "Contact me at 555-123-4567 or john.smith@example.com" [] "May 1, 2025")
    = some "555-123-4567" := by decide

example : dictGet "Email"
    (extract_data "Contact me at 555-123-4567 or john.smith@example.com" [] "May 1, 2025")
    = some "john.smith@example.com" := by decide

/-! ## Lemmas about the dict model -/

theorem dictGet_dictSet_self (k v : String) (m : FieldMap) :
    dictGet k (dictSet k v m) = some v := by
  induction m with
  | nil => simp [dictSet, dictGet]
  | cons p rest ih =>
    by_cases h : p.1 = k
    · simp [dictSet, dictGet, h]
    · simp [dictSet, dictGet, h, ih]

theorem dictGet_dictSet_ne {k k' : String} (h : k' ≠ k) (v : String) (m : FieldMap) :
    dictGet k (dictSet k' v m) = dictGet k m := by
  induction m with
  | nil => simp [dictSet, dictGet, h]
  | cons p rest ih =>
    by_cases h1 : p.1 = k'
    · simp [dictSet, dictGet, h1, h]
    · by_cases h2 : p.1 = k <;> simp [dictSet, dictGet, h1, h2, ih, Ne.symm h]

theorem hasKey_eq_isSome (k : String) (m : FieldMap) :
    hasKey k m = (dictGet k m).isSome := by
  induction m with
  | nil => simp [hasKey, dictGet]
  | cons p rest ih =>
    by_cases h : p.1 = k <;> simp [hasKey, dictGet, h, ih]

theorem hasKey_of_dictGet {k v : String} {m : FieldMap} (h : dictGet k m = some v) :
    hasKey k m = true := by
  rw [hasKey_eq_isSome, h]; rfl

theorem hasKey_dictSet_ne {k k' : String} (h : k' ≠ k) (v : String) (m : FieldMap) :
    hasKey k (dictSet k' v m) = hasKey k m := by
  rw [hasKey_eq_isSome, hasKey_eq_isSome, dictGet_dictSet_ne h]

theorem dictGet_dictSet_preserve {k κ v t : String} {data : FieldMap}
    (hfresh : hasKey κ data = false) (h : dictGet k data = some v) :
    dictGet k (dictSet κ t data) = some v := by
  rcases eq_or_ne κ k with rfl | hne
  · rw [hasKey_of_dictGet h] at hfresh; cases hfresh
  · rw [dictGet_dictSet_ne hne, h]

theorem hasKey_iff_mem (k : String) (m : FieldMap) :
    hasKey k m = true ↔ k ∈ dictKeys m := by
  induction m with
  | nil => simp [hasKey, dictKeys]
  | cons p rest ih =>
    by_cases h : p.1 = k <;> simp [hasKey, dictKeys, h, ih]
    exact fun he => (h he.symm).elim

theorem dictKeys_dictSet (k v : String) (m : FieldMap) :
    dictKeys (dictSet k v m) = if hasKey k m then dictKeys m else dictKeys m ++ [k] := by
  induction m with
  | nil => simp [dictSet, dictKeys, hasKey]
  | cons p rest ih =>
    by_cases h : p.1 = k
    · simp [dictSet, dictKeys, hasKey, h]
    · by_cases h2 : hasKey k rest
      · simp [dictSet, dictKeys, hasKey, h, h2] at ih ⊢
        exact ih
      · simp [dictSet, dictKeys, hasKey, h, h2] at ih ⊢
        exact ih

/-! ## Lemmas about the entity pass -/

/-- The five NER categories handled by the loop and the field each feeds. -/
def catPairs : List (String × String) :=
  [("PERSON", "Name"), ("DATE", "Date"), ("ORG", "Organization"),
   ("GPE", "Location"), ("MONEY", "Amount")]

theorem entStep_preserve {k v : String} {data : FieldMap} {e : Entity}
    (h : dictGet k data = some v) : dictGet k (entStep data e) = some v := by
  unfold entStep
  repeat' split
  all_goals
    first
      | exact h
      | (rename_i hc
         rw [Bool.and_eq_true, Bool.not_eq_true'] at hc
         exact dictGet_dictSet_preserve hc.2 h)

theorem entPass_preserve {k v : String} {data : FieldMap} (l : List Entity)
    (h : dictGet k data = some v) : dictGet k (l.foldl entStep data) = some v := by
  induction l generalizing data with
  | nil => exact h
  | cons e l ih => exact ih (entStep_preserve h)

theorem entStep_hasKey_other {L f : String}
    (hLf : (L, f) ∈ catPairs) {data : FieldMap} {a : Entity} (ha : ¬a.label_ = L) :
    hasKey f (entStep data a) = hasKey f data := by
  fin_cases hLf <;>
    · unfold entStep
      repeat' split
      all_goals
        first
          | rfl
          | (rename_i hc
             rw [Bool.and_eq_true] at hc
             exact absurd (by simpa using hc.1) ha)
          | (rw [hasKey_dictSet_ne (by decide)])

theorem entPass_hasKey_other {L f : String} (hLf : (L, f) ∈ catPairs)
    {data : FieldMap} {l : List Entity} (hl : ∀ e ∈ l, ¬e.label_ = L) :
    hasKey f (l.foldl entStep data) = hasKey f data := by
  induction l generalizing data with
  | nil => rfl
  | cons a l ih =>
    rw [List.foldl_cons, ih (fun e he => hl e (List.mem_cons_of_mem a he)),
      entStep_hasKey_other hLf (hl a (List.mem_cons_self a l))]

theorem entPass_first {L f : String} (hLf : (L, f) ∈ catPairs) (ents : List Entity)
    {e : Entity} :
    ents.find? (fun x => x.label_ == L) = some e →
    ∀ {data : FieldMap}, hasKey f data = false →
      dictGet f (ents.foldl entStep data) = some e.text := by
  have hmem := hLf
  simp only [catPairs, List.mem_cons, List.not_mem_nil, or_false, Prod.mk.injEq] at hLf
  obtain ⟨rfl, rfl⟩ | ⟨rfl, rfl⟩ | ⟨rfl, rfl⟩ | ⟨rfl, rfl⟩ | ⟨rfl, rfl⟩ := hLf <;>
    · induction ents with
      | nil => intro hfind; simp [List.find?] at hfind
      | cons a l ih =>
        intro hfind data hfree
        rw [List.find?_cons] at hfind
        split at hfind
        · rename_i hp
          obtain rfl : a = e := by simpa using hfind
          have hlab := beq_iff_eq.mp hp
          rw [List.foldl_cons]
          refine entPass_preserve l ?_
          simp [entStep, hlab, hfree, dictGet_dictSet_self]
        · rename_i hp
          rw [List.foldl_cons]
          refine ih hfind ?_
          rw [entStep_hasKey_other hmem
            (by intro hl; rw [hl] at hp; simp at hp)]
          exact hfree

/-! ## Lemmas about the later phases of `extract_data` -/

theorem hasKey_dictSet_self (k v : String) (m : FieldMap) :
    hasKey k (dictSet k v m) = true := by
  rw [hasKey_eq_isSome, dictGet_dictSet_self]; rfl

theorem hasKey_dictSet_mono {k : String} {m : FieldMap} (k' v : String)
    (h : hasKey k m = true) : hasKey k (dictSet k' v m) = true := by
  rcases eq_or_ne k' k with rfl | hne
  · exact hasKey_dictSet_self k' v m
  · rw [hasKey_dictSet_ne hne]; exact h

theorem dictGet_phonePhase_ne {k : String} (h : k ≠ "Phone") (text : String) (d : FieldMap) :
    dictGet k (phonePhase text d) = dictGet k d := by
  unfold phonePhase
  cases phoneSearch text <;> simp [dictGet_dictSet_ne (Ne.symm h)]

theorem dictGet_emailPhase_ne {k : String} (h : k ≠ "Email") (text : String) (d : FieldMap) :
    dictGet k (emailPhase text d) = dictGet k d := by
  unfold emailPhase
  cases emailSearch text <;> simp [dictGet_dictSet_ne (Ne.symm h)]

theorem dictGet_phonePhase_set {text : String} {p : String} (d : FieldMap)
    (h : phoneSearch text = some p) : dictGet "Phone" (phonePhase text d) = some p := by
  simp [phonePhase, h, dictGet_dictSet_self]

theorem dictGet_emailPhase_set {text : String} {e : String} (d : FieldMap)
    (h : emailSearch text = some e) : dictGet "Email" (emailPhase text d) = some e := by
  simp [emailPhase, h, dictGet_dictSet_self]

theorem dictGet_datePhase_ne {k : String} (h : k ≠ "Date") (today : String) (d : FieldMap) :
    dictGet k (datePhase today d) = dictGet k d := by
  unfold datePhase
  split <;> simp [dictGet_dictSet_ne (Ne.symm h)]

theorem datePhase_of_hasKey {today : String} {d : FieldMap}
    (h : hasKey "Date" d = true) : datePhase today d = d := by
  simp [datePhase, h]

theorem dictGet_datePhase_fallback {today : String} {d : FieldMap}
    (h : hasKey "Date" d = false) : dictGet "Date" (datePhase today d) = some today := by
  simp [datePhase, h, dictGet_dictSet_self]

theorem hasKey_datePhase (today : String) (d : FieldMap) :
    hasKey "Date" (datePhase today d) = true := by
  unfold datePhase
  split
  · assumption
  · exact hasKey_dictSet_self _ _ _

theorem dictGet_datePhase_preserve {k v today : String} {d : FieldMap}
    (h : dictGet k d = some v) : dictGet k (datePhase today d) = some v := by
  rcases eq_or_ne k "Date" with rfl | hk
  · rw [datePhase_of_hasKey (hasKey_of_dictGet h)]; exact h
  · rw [dictGet_datePhase_ne hk]; exact h

theorem hasKey_phonePhase_ne {k : String} (h : k ≠ "Phone") (text : String) (d : FieldMap) :
    hasKey k (phonePhase text d) = hasKey k d := by
  rw [hasKey_eq_isSome, hasKey_eq_isSome, dictGet_phonePhase_ne h]

theorem hasKey_emailPhase_ne {k : String} (h : k ≠ "Email") (text : String) (d : FieldMap) :
    hasKey k (emailPhase text d) = hasKey k d := by
  rw [hasKey_eq_isSome, hasKey_eq_isSome, dictGet_emailPhase_ne h]

theorem hasKey_datePhase_ne {k : String} (h : k ≠ "Date") (today : String) (d : FieldMap) :
    hasKey k (datePhase today d) = hasKey k d := by
  rw [hasKey_eq_isSome, hasKey_eq_isSome, dictGet_datePhase_ne h]

theorem dictGet_DT_docTypePhase (text : String) (d : FieldMap) :
    dictGet "Document_Type" (docTypePhase text d) =
      some (if invoiceCond text then "Invoice"
        else if agreementCond text then "Agreement" else "Application") := by
  by_cases h1 : invoiceCond text
  · simp only [docTypePhase, h1, if_true]
    split
    · exact dictGet_dictSet_self _ _ _
    · split
      · rw [dictGet_dictSet_ne (by decide)]
        exact dictGet_dictSet_self _ _ _
      · exact dictGet_dictSet_self _ _ _
  · by_cases h2 : agreementCond text <;>
      simp [docTypePhase, h1, h2, dictGet_dictSet_self]

theorem dictGet_docTypePhase_preserve {k v : String} (hk : k ≠ "Document_Type")
    {text : String} {d : FieldMap} (h : dictGet k d = some v) :
    dictGet k (docTypePhase text d) = some v := by
  have hDT : dictGet k (dictSet "Document_Type" "Invoice" d) = some v := by
    rw [dictGet_dictSet_ne (Ne.symm hk)]; exact h
  simp only [docTypePhase]
  split
  · split
    · exact hDT
    · rename_i hfresh
      split
      · exact dictGet_dictSet_preserve (by simpa using hfresh) hDT
      · exact hDT
  · split <;> (rw [dictGet_dictSet_ne (Ne.symm hk)]; exact h)

theorem dictGet_docTypePhase_noninvoice {k text : String} {d : FieldMap}
    (h1 : invoiceCond text = false) (hk : k ≠ "Document_Type") :
    dictGet k (docTypePhase text d) = dictGet k d := by
  simp only [docTypePhase, h1, Bool.false_eq_true, if_false]
  split <;> rw [dictGet_dictSet_ne (Ne.symm hk)]

theorem dictGet_docTypePhase_fallback {text a : String} {d : FieldMap}
    (h1 : invoiceCond text = true) (h2 : hasKey "Amount" d = false)
    (ha : amountSearch text = some a) :
    dictGet "Amount" (docTypePhase text d) = some a := by
  have h2' : hasKey "Amount" (dictSet "Document_Type" "Invoice" d) = false := by
    rw [hasKey_dictSet_ne (by decide)]; exact h2
  simp only [docTypePhase, h1, if_true]
  rw [if_neg (by rw [h2']; exact Bool.false_ne_true), ha]
  exact dictGet_dictSet_self _ _ _

theorem hasKey_docTypePhase_mono {k text : String} {d : FieldMap}
    (h : hasKey k d = true) : hasKey k (docTypePhase text d) = true := by
  simp only [docTypePhase]
  split
  · split
    · exact hasKey_dictSet_mono _ _ h
    · split
      · exact hasKey_dictSet_mono _ _ (hasKey_dictSet_mono _ _ h)
      · exact hasKey_dictSet_mono _ _ h
  · split <;> exact hasKey_dictSet_mono _ _ h

/-! ## Well-formedness of the extracted dict -/

/-- The eight field names `extract_data` can ever write. -/
def fieldNames : List String :=
  ["Name", "Date", "Organization", "Location", "Amount", "Phone", "Email", "Document_Type"]

/-- Keys are pairwise distinct and drawn from the eight field names. -/
def wfKeys (m : FieldMap) : Prop :=
  (dictKeys m).Nodup ∧ ∀ x ∈ dictKeys m, x ∈ fieldNames

theorem wfKeys_dictSet {m : FieldMap} {k : String} (v : String)
    (h : wfKeys m) (hk : k ∈ fieldNames) : wfKeys (dictSet k v m) := by
  obtain ⟨hnd, hsub⟩ := h
  rw [wfKeys, dictKeys_dictSet]
  split
  · exact ⟨hnd, hsub⟩
  · rename_i hmem
    have hk' : k ∉ dictKeys m := fun hin => hmem ((hasKey_iff_mem k m).mpr hin)
    constructor
    · simp [List.nodup_append, hnd, hk']
    · intro x hx
      rcases List.mem_append.mp hx with hx | hx
      · exact hsub x hx
      · rwa [List.mem_singleton.mp hx]

theorem wfKeys_entStep {m : FieldMap} {e : Entity} (h : wfKeys m) : wfKeys (entStep m e) := by
  unfold entStep
  repeat' split
  all_goals first
    | exact h
    | exact wfKeys_dictSet _ h (by decide)

theorem wfKeys_entityPhase (ents : List Entity) : wfKeys (entityPhase ents) := by
  have : ∀ (l : List Entity) (m : FieldMap), wfKeys m → wfKeys (l.foldl entStep m) := by
    intro l
    induction l with
    | nil => exact fun m h => h
    | cons a l ih => exact fun m h => ih _ (wfKeys_entStep h)
  exact this ents [] ⟨List.nodup_nil, by simp [dictKeys]⟩

theorem wfKeys_docTypePhase (text : String) {d : FieldMap} (h : wfKeys d) :
    wfKeys (docTypePhase text d) := by
  have hDT : wfKeys (dictSet "Document_Type" "Invoice" d) :=
    wfKeys_dictSet "Invoice" h (by decide)
  simp only [docTypePhase]
  by_cases h1 : invoiceCond text = true
  · simp only [h1, if_true]
    by_cases h2 : hasKey "Amount" (dictSet "Document_Type" "Invoice" d) = true
    · simp [h2]
      exact hDT
    · simp [h2]
      cases amountSearch text
      · exact hDT
      · exact wfKeys_dictSet _ hDT (by decide)
  · simp only [Bool.not_eq_true] at h1
    simp [h1]
    by_cases h2 : agreementCond text = true <;> simp [h2] <;>
      exact wfKeys_dictSet _ h (by decide)

theorem wfKeys_extract_data (text : String) (ents : List Entity) (today : String) :
    wfKeys (extract_data text ents today) := by
  have h1 := wfKeys_entityPhase ents
  have h2 : wfKeys (phonePhase text (entityPhase ents)) := by
    unfold phonePhase
    cases phoneSearch text
    · exact h1
    · exact wfKeys_dictSet _ h1 (by decide)
  have h3 : wfKeys (emailPhase text (phonePhase text (entityPhase ents))) := by
    unfold emailPhase
    cases emailSearch text
    · exact h2
    · exact wfKeys_dictSet _ h2 (by decide)
  have h4 : wfKeys (datePhase today (emailPhase text (phonePhase text (entityPhase ents)))) := by
    unfold datePhase
    split
    · exact h3
    · exact wfKeys_dictSet _ h3 (by decide)
  exact wfKeys_docTypePhase text h4

/-! ## Helper: the invoice amount fallback, in general form -/

theorem amount_fallback_general {text : String} {ents : List Entity} {today : String}
    (h1 : invoiceCond text = true) (h2 : ∀ e ∈ ents, ¬e.label_ = "MONEY")
    {a : String} (ha : amountSearch text = some a) :
    dictGet "Amount" (extract_data text ents today) = some a := by
  have hp0 : hasKey "Amount" (entityPhase ents) = false := by
    rw [entityPhase,
      entPass_hasKey_other (show ("MONEY", "Amount") ∈ catPairs by decide) h2]
    rfl
  have hp1 : hasKey "Amount"
      (datePhase today (emailPhase text (phonePhase text (entityPhase ents)))) = false := by
    rw [hasKey_datePhase_ne (by decide), hasKey_emailPhase_ne (by decide),
      hasKey_phonePhase_ne (by decide)]
    exact hp0
  unfold extract_data
  exact dictGet_docTypePhase_fallback h1 hp1 ha

/-! ## Claim C1 -/

/-- Claim C1: for every transcript, `Document_Type` is exactly one of
Invoice / Agreement / Application, decided by case-insensitive substring
search on the full transcript in priority order: invoice/bill/payment
first (→ Invoice), else agreement/contract (→ Agreement), else
Application; in particular a transcript containing both "invoice" and
"agreement" classifies as Invoice (first conjunct of the priority). -/
theorem c1_document_type_priority (text : String) (ents : List Entity) (today : String) :
    (dictGet "Document_Type" (extract_data text ents today) = some "Invoice" ∨
      dictGet "Document_Type" (extract_data text ents today) = some "Agreement" ∨
      dictGet "Document_Type" (extract_data text ents today) = some "Application") ∧
    (invoiceCond text = true →
      dictGet "Document_Type" (extract_data text ents today) = some "Invoice") ∧
    (invoiceCond text = false → agreementCond text = true →
      dictGet "Document_Type" (extract_data text ents today) = some "Agreement") ∧
    (invoiceCond text = false → agreementCond text = false →
      dictGet "Document_Type" (extract_data text ents today) = some "Application") := by
  unfold extract_data
  rw [dictGet_DT_docTypePhase]
  by_cases h1 : invoiceCond text = true
  · simp [h1]
  · rw [Bool.not_eq_true] at h1
    by_cases h2 : agreementCond text = true
    · simp [h1, h2]
    · rw [Bool.not_eq_true] at h2
      simp [h1, h2]

/-- Witness for C1: a transcript containing both "invoice" and
"agreement" classifies as Invoice. -/
theorem c1_document_type_priority_witness :
    dictGet "Document_Type"
      (extract_data "Please turn the agreement into an invoice." [] "May 1, 2025") =
      some "Invoice" :=
  (c1_document_type_priority "Please turn the agreement into an invoice." [] "May 1, 2025").2.1
    (by decide)

/-! ## Claim C2 -/

/-- Claim C2: in the entity pass each of Name / Date / Organization /
Location / Amount is bound to the text of the *first* entity of the
corresponding spaCy category (PERSON / DATE / ORG / GPE / MONEY) in
document order; later entities of the same category are discarded
(`List.find?` returns exactly the first match). -/
theorem c2_first_entity_wins (text : String) (ents : List Entity) (today : String) :
    (∀ e, ents.find? (fun x => x.label_ == "PERSON") = some e →
      dictGet "Name" (extract_data text ents today) = some e.text) ∧
    (∀ e, ents.find? (fun x => x.label_ == "DATE") = some e →
      dictGet "Date" (extract_data text ents today) = some e.text) ∧
    (∀ e, ents.find? (fun x => x.label_ == "ORG") = some e →
      dictGet "Organization" (extract_data text ents today) = some e.text) ∧
    (∀ e, ents.find? (fun x => x.label_ == "GPE") = some e →
      dictGet "Location" (extract_data text ents today) = some e.text) ∧
    (∀ e, ents.find? (fun x => x.label_ == "MONEY") = some e →
      dictGet "Amount" (extract_data text ents today) = some e.text) := by
  refine ⟨?_, ?_, ?_, ?_, ?_⟩
  · intro e hfind
    unfold extract_data
    apply dictGet_docTypePhase_preserve (by decide)
    apply dictGet_datePhase_preserve
    rw [dictGet_emailPhase_ne (by decide), dictGet_phonePhase_ne (by decide)]
    exact entPass_first (show ("PERSON", "Name") ∈ catPairs by decide) ents hfind rfl
  · intro e hfind
    unfold extract_data
    apply dictGet_docTypePhase_preserve (by decide)
    apply dictGet_datePhase_preserve
    rw [dictGet_emailPhase_ne (by decide), dictGet_phonePhase_ne (by decide)]
    exact entPass_first (show ("DATE", "Date") ∈ catPairs by decide) ents hfind rfl
  · intro e hfind
    unfold extract_data
    apply dictGet_docTypePhase_preserve (by decide)
    apply dictGet_datePhase_preserve
    rw [dictGet_emailPhase_ne (by decide), dictGet_phonePhase_ne (by decide)]
    exact entPass_first (show ("ORG", "Organization") ∈ catPairs by decide) ents hfind rfl
  · intro e hfind
    unfold extract_data
    apply dictGet_docTypePhase_preserve (by decide)
    apply dictGet_datePhase_preserve
    rw [dictGet_emailPhase_ne (by decide), dictGet_phonePhase_ne (by decide)]
    exact entPass_first (show ("GPE", "Location") ∈ catPairs by decide) ents hfind rfl
  · intro e hfind
    unfold extract_data
    apply dictGet_docTypePhase_preserve (by decide)
    apply dictGet_datePhase_preserve
    rw [dictGet_emailPhase_ne (by decide), dictGet_phonePhase_ne (by decide)]
    exact entPass_first (show ("MONEY", "Amount") ∈ catPairs by decide) ents hfind rfl

/-- Witness for C2: with Person entities "John Smith" then "Jane Doe" in
that order, `Name` resolves to "John Smith". -/
theorem c2_first_entity_wins_witness :
    dictGet "Name"
      (extract_data "" [⟨"John Smith", "PERSON"⟩, ⟨"Jane Doe", "PERSON"⟩] "May 1, 2025") =
      some "John Smith" :=
  (c2_first_entity_wins "" [⟨"John Smith", "PERSON"⟩, ⟨"Jane Doe", "PERSON"⟩]
    "May 1, 2025").1 ⟨"John Smith", "PERSON"⟩ (by decide)

/-! ## Claim C3 -/

/-- Claim C3: the result always contains the keys `Date` and
`Document_Type`; and when the entity pass assigned no Date (no DATE
entity in the sequence), `Date` is the current date `today` as formatted
at extraction time by the external clock collaborator. -/
theorem c3_date_and_doctype_present (text : String) (ents : List Entity) (today : String) :
    hasKey "Date" (extract_data text ents today) = true ∧
    hasKey "Document_Type" (extract_data text ents today) = true ∧
    ((∀ e ∈ ents, ¬e.label_ = "DATE") →
      dictGet "Date" (extract_data text ents today) = some today) := by
  refine ⟨?_, ?_, ?_⟩
  · unfold extract_data
    exact hasKey_docTypePhase_mono (hasKey_datePhase _ _)
  · unfold extract_data
    rw [hasKey_eq_isSome, dictGet_DT_docTypePhase]
    rfl
  · intro hno
    have hp0 : hasKey "Date" (entityPhase ents) = false := by
      rw [entityPhase,
        entPass_hasKey_other (show ("DATE", "Date") ∈ catPairs by decide) hno]
      rfl
    have hp1 : hasKey "Date" (emailPhase text (phonePhase text (entityPhase ents))) = false := by
      rw [hasKey_emailPhase_ne (by decide), hasKey_phonePhase_ne (by decide)]
      exact hp0
    unfold extract_data
    exact dictGet_docTypePhase_preserve (by decide) (dictGet_datePhase_fallback hp1)

/-- Witness for C3: a transcript with no DATE entity gets `today`. -/
theorem c3_date_and_doctype_present_witness :
    dictGet "Date" (extract_data "hello there" [] "May 1, 2025") = some "May 1, 2025" :=
  (c3_date_and_doctype_present "hello there" [] "May 1, 2025").2.2 (by simp)

/-! ## Claim C5 -/

/-- Claim C5: under the Invoice classification, when no MONEY entity set
`Amount`, the currency fallback scan assigns its match to `Amount`; the
fallback runs *only* under the Invoice classification (otherwise
`Amount` is whatever the entity pass produced); and on the concrete
transcript of the spec, `Document_Type` is Invoice with
`Amount` = "$1,500". -/
theorem c5_invoice_amount_fallback (text : String) (ents : List Entity) (today : String) :
    (invoiceCond text = true → (∀ e ∈ ents, ¬e.label_ = "MONEY") →
      ∀ a, amountSearch text = some a →
        dictGet "Amount" (extract_data text ents today) = some a) ∧
    (invoiceCond text = false →
      dictGet "Amount" (extract_data text ents today) =
        dictGet "Amount" (entityPhase ents)) ∧
    dictGet "Document_Type"
      (extract_data "I need an invoice for $1,500 for web development." [] today) =
      some "Invoice" ∧
    dictGet "Amount"
      (extract_data "I need an invoice for $1,500 for web development." [] today) =
      some "$1,500" := by
  refine ⟨fun h1 h2 a ha => amount_fallback_general h1 h2 ha, ?_, ?_, ?_⟩
  · intro h1
    unfold extract_data
    rw [dictGet_docTypePhase_noninvoice h1 (by decide),
      dictGet_datePhase_ne (by decide), dictGet_emailPhase_ne (by decide),
      dictGet_phonePhase_ne (by decide)]
  · unfold extract_data
    rw [dictGet_DT_docTypePhase]
    simp [show invoiceCond "I need an invoice for $1,500 for web development." = true
      from by decide]
  · exact amount_fallback_general (by decide) (by simp) (by decide)

/-- Witness for C5: the fallback fires on an invoice transcript with a
"dollars"-suffixed amount and no MONEY entity. -/
theorem c5_invoice_amount_fallback_witness :
    dictGet "Amount"
      (extract_data "Send the invoice, total 75 dollars." [] "May 1, 2025") =
      some "75 dollars" :=
  (c5_invoice_amount_fallback "Send the invoice, total 75 dollars." [] "May 1, 2025").1
    (by decide) (by simp) "75 dollars" (by decide)

/-! ## Claim C6 -/

/-- Claim C6: the phone and email scans run on the raw transcript
independently of the entity pass (any `ents`); a match is stored under
`Phone` / `Email`; and on the spec's concrete transcript they produce
"555-123-4567" and "john.smith@example.com". -/
theorem c6_contact_scans (text : String) (ents : List Entity) (today : String) :
    (∀ p, phoneSearch text = some p →
      dictGet "Phone" (extract_data text ents today) = some p) ∧
    (∀ e, emailSearch text = some e →
      dictGet "Email" (extract_data text ents today) = some e) ∧
    phoneSearch "Contact me at 555-123-4567 or john.smith@example.com" =
      some "555-123-4567" ∧
    emailSearch "Contact me at 555-123-4567 or john.smith@example.com" =
      some "john.smith@example.com" := by
  refine ⟨?_, ?_, by decide, by decide⟩
  · intro p hp
    unfold extract_data
    apply dictGet_docTypePhase_preserve (by decide)
    apply dictGet_datePhase_preserve
    rw [dictGet_emailPhase_ne (by decide)]
    exact dictGet_phonePhase_set _ hp
  · intro e he
    unfold extract_data
    apply dictGet_docTypePhase_preserve (by decide)
    apply dictGet_datePhase_preserve
    exact dictGet_emailPhase_set _ he

/-- Witness for C6: the scans' results land in the extracted map even
with a nonempty entity sequence. -/
theorem c6_contact_scans_witness :
    dictGet "Phone"
      (extract_data "Contact me at 555-123-4567 or john.smith@example.com"
        [⟨"John Smith", "PERSON"⟩] "May 1, 2025") = some "555-123-4567" :=
  (c6_contact_scans "Contact me at 555-123-4567 or john.smith@example.com"
    [⟨"John Smith", "PERSON"⟩] "May 1, 2025").1 "555-123-4567" (by decide)

/-! ## Claim C8 -/

/-- Claim C8: `extract_data` is a total function of its inputs (the
embedding is a plain function, mirroring the absence of any failing
operation in the source once the NER collaborator has returned): it
always returns a dict whose keys are pairwise distinct and drawn from
the eight known field names — a missing field is a missing key, never an
error value. -/
theorem c8_extraction_total (text : String) (ents : List Entity) (today : String) :
    ∃ m : FieldMap, extract_data text ents today = m ∧ (dictKeys m).Nodup ∧
      ∀ k ∈ dictKeys m, k ∈ fieldNames :=
  ⟨extract_data text ents today, rfl, (wfKeys_extract_data text ents today).1,
    (wfKeys_extract_data text ents today).2⟩

/-! ## The template matcher `match_template`

The sentence-transformers encoder is an external collaborator producing a
fixed-size real vector; `util.pytorch_cos_sim` is cosine similarity.
Python's `max(scores, key=scores.get)` walks the insertion-ordered dict
and keeps the first key of maximal score (strictly greater scores
replace the current best). -/

/-- Cosine similarity `util.pytorch_cos_sim` on real vectors. -/
noncomputable def cosSim {n : ℕ} (x y : Fin n → ℝ) : ℝ :=
  (∑ i, x i * y i) / (Real.sqrt (∑ i, x i ^ 2) * Real.sqrt (∑ i, y i ^ 2))

/-- Loop of Python `max(scores, key=scores.get)`: current best `(k, v)`,
replaced only on a strictly greater value. -/
noncomputable def maxByValueGo (k : String) (v : ℝ) : List (String × ℝ) → String
  | [] => k
  | (k', v') :: rest => if v < v' then maxByValueGo k' v' rest else maxByValueGo k v rest

/-- Python `max(scores, key=scores.get)`; `none` models the `ValueError`
raised by `max` on an empty dict. -/
noncomputable def maxByValue : List (String × ℝ) → Option String
  | [] => none
  | (k, v) :: rest => some (maxByValueGo k v rest)

/-- Function `match_template(text, templates)` of `src/main.py`; `templates` is
the insertion-ordered catalog (key ↦ description) and `encode` the
external embedding model, applied to the transcript and to each
description. -/
noncomputable def match_template {n : ℕ} (encode : String → Fin n → ℝ)
    (text : String) (templates : List (String × String)) : Option String :=
  maxByValue (templates.map fun t => (t.1, cosSim (encode text) (encode t.2)))

/-- The `TEMPLATES` catalog of `src/main.py` (key ↦ description). -/
def TEMPLATES : List (String × String) :=
  [("invoice",
    "Invoice for payment including client details, amount, and services rendered"),
   ("agreement",
    "Service level agreement with customer details and service terms"),
   ("application",
    "Application form with personal information including name, contact details")]

theorem cosSim_le_one {n : ℕ} (x y : Fin n → ℝ) : cosSim x y ≤ 1 := by
  unfold cosSim
  rcases le_or_lt (Real.sqrt (∑ i, x i ^ 2) * Real.sqrt (∑ i, y i ^ 2)) 0 with h | h
  · have h0 : Real.sqrt (∑ i, x i ^ 2) * Real.sqrt (∑ i, y i ^ 2) = 0 :=
      le_antisymm h (mul_nonneg (Real.sqrt_nonneg _) (Real.sqrt_nonneg _))
    rw [h0, div_zero]
    exact zero_le_one
  · rw [div_le_one h]
    exact Real.sum_mul_le_sqrt_mul_sqrt _ _ _

theorem cosSim_self {n : ℕ} (x : Fin n → ℝ) (hx : x ≠ 0) : cosSim x x = 1 := by
  have hex : ∃ i, x i ≠ 0 := by
    by_contra hno
    push_neg at hno
    exact hx (funext hno)
  obtain ⟨i, hi⟩ := hex
  have hpos : 0 < ∑ j, x j ^ 2 := by
    refine Finset.sum_pos' (fun j _ => sq_nonneg _) ⟨i, Finset.mem_univ i, ?_⟩
    exact lt_of_le_of_ne (sq_nonneg _) (Ne.symm (pow_ne_zero 2 hi))
  have hsum : (∑ j, x j * x j) = ∑ j, x j ^ 2 :=
    Finset.sum_congr rfl fun j _ => (pow_two (x j)).symm
  unfold cosSim
  rw [hsum, Real.mul_self_sqrt (Finset.sum_nonneg fun j _ => sq_nonneg _)]
  exact div_self hpos.ne'

theorem maxByValueGo_spec (l : List (String × ℝ)) :
    ∀ (k : String) (v : ℝ), ∃ w : ℝ,
      ((maxByValueGo k v l = k ∧ w = v) ∨ (maxByValueGo k v l, w) ∈ l) ∧
      v ≤ w ∧ ∀ p ∈ l, p.2 ≤ w := by
  induction l with
  | nil =>
    intro k v
    exact ⟨v, Or.inl ⟨rfl, rfl⟩, le_refl v, by simp⟩
  | cons p rest ih =>
    intro k v
    by_cases h : v < p.2
    · obtain ⟨w, hmem, hvw, hall⟩ := ih p.1 p.2
      have hgo : maxByValueGo k v (p :: rest) = maxByValueGo p.1 p.2 rest := by
        obtain ⟨k', v'⟩ := p
        simp only [maxByValueGo]
        rw [if_pos h]
      refine ⟨w, ?_, h.le.trans hvw, ?_⟩
      · rcases hmem with ⟨h1, h2⟩ | hmem2
        · right
          rw [hgo, h1, h2]
          exact List.mem_cons_self p rest
        · right
          rw [hgo]
          exact List.mem_cons_of_mem _ hmem2
      · intro q hq
        rcases List.mem_cons.mp hq with rfl | hq2
        · exact hvw
        · exact hall q hq2
    · obtain ⟨w, hmem, hvw, hall⟩ := ih k v
      have hgo : maxByValueGo k v (p :: rest) = maxByValueGo k v rest := by
        obtain ⟨k', v'⟩ := p
        simp only [maxByValueGo]
        rw [if_neg h]
      refine ⟨w, ?_, hvw, ?_⟩
      · rcases hmem with ⟨h1, h2⟩ | hmem2
        · exact Or.inl ⟨hgo.trans h1, h2⟩
        · right
          rw [hgo]
          exact List.mem_cons_of_mem _ hmem2
      · intro q hq
        rcases List.mem_cons.mp hq with rfl | hq2
        · exact le_trans (not_lt.mp h) hvw
        · exact hall q hq2

theorem match_template_argmax {n : ℕ} (encode : String → Fin n → ℝ) (text : String)
    (templates : List (String × String)) (hne : templates ≠ []) :
    ∃ kd ∈ templates, match_template encode text templates = some kd.1 ∧
      ∀ t ∈ templates,
        cosSim (encode text) (encode t.2) ≤ cosSim (encode text) (encode kd.2) := by
  obtain ⟨t0, rest, rfl⟩ := List.exists_cons_of_ne_nil hne
  obtain ⟨w, hmem, hvw, hall⟩ :=
    maxByValueGo_spec (rest.map fun t => (t.1, cosSim (encode text) (encode t.2)))
      t0.1 (cosSim (encode text) (encode t0.2))
  have heq : match_template encode text (t0 :: rest) =
      some (maxByValueGo t0.1 (cosSim (encode text) (encode t0.2))
        (rest.map fun t => (t.1, cosSim (encode text) (encode t.2)))) := rfl
  rcases hmem with ⟨h1, h2⟩ | hmem2
  · refine ⟨t0, List.mem_cons_self t0 rest, by rw [heq, h1], ?_⟩
    intro t ht
    rcases List.mem_cons.mp ht with rfl | ht2
    · exact le_refl _
    · have := hall (t.1, cosSim (encode text) (encode t.2))
        (List.mem_map_of_mem _ ht2)
      rw [h2] at this
      exact this
  · obtain ⟨t, ht, hft⟩ := List.mem_map.mp hmem2
    have ht1 : t.1 = maxByValueGo t0.1 (cosSim (encode text) (encode t0.2))
        (rest.map fun t => (t.1, cosSim (encode text) (encode t.2))) :=
      congrArg Prod.fst hft
    have ht2 : cosSim (encode text) (encode t.2) = w := congrArg Prod.snd hft
    refine ⟨t, List.mem_cons_of_mem _ ht, by rw [heq, ht1], ?_⟩
    intro t' ht'
    rcases List.mem_cons.mp ht' with rfl | ht'2
    · rw [ht2]
      exact hvw
    · have := hall (t'.1, cosSim (encode text) (encode t'.2))
        (List.mem_map_of_mem _ ht'2)
      rw [ht2]
      exact this

/-! ## Claim C4 -/

/-- Claim C4: on a non-empty catalog, `match_template` returns the key of a
catalog entry whose description embedding realizes the maximum cosine
similarity with the transcript embedding (so the key is always present in
the catalog); and a transcript equal to one template's own description is
a top or tied-top match for that template (its similarity, which is 1 for
a nonzero embedding, bounds every other template's similarity). -/
theorem c4_match_returns_best {n : ℕ} (encode : String → Fin n → ℝ) (text : String)
    (templates : List (String × String)) (hne : templates ≠ []) :
    (∃ kd ∈ templates, match_template encode text templates = some kd.1 ∧
      ∀ t ∈ templates,
        cosSim (encode text) (encode t.2) ≤ cosSim (encode text) (encode kd.2)) ∧
    (∀ kd ∈ templates, text = kd.2 → encode text ≠ 0 →
      ∀ t ∈ templates,
        cosSim (encode text) (encode t.2) ≤ cosSim (encode text) (encode kd.2)) := by
  refine ⟨match_template_argmax encode text templates hne, ?_⟩
  intro kd _ htext hnz t _
  rw [← htext, cosSim_self (encode text) hnz]
  exact cosSim_le_one _ _

/-- A degenerate one-dimensional encoder used to witness C4. -/
noncomputable def encodeW : String → Fin 1 → ℝ := fun _ _ => 1

/-- Witness for C4: on a concrete two-entry catalog whose first
description equals the query, the query is a tied-top match. -/
theorem c4_match_returns_best_witness :
    cosSim (encodeW "alpha") (encodeW "beta") ≤ cosSim (encodeW "alpha") (encodeW "alpha") :=
  (c4_match_returns_best encodeW "alpha" [("k1", "alpha"), ("k2", "beta")]
      (by decide)).2
    ("k1", "alpha") (by simp) rfl
    (by intro h; exact one_ne_zero (congrFun h 0))
    ("k2", "beta") (by simp)

/-! ## Claim C7 -/

/-- Claim C7: on an empty catalog `match_template` fails with an explicit
error: the scores dict is empty, and Python's `max` raises `ValueError`
(modelled by `none`); no key is returned and no default is picked. -/
theorem c7_empty_catalog_fails {n : ℕ} (encode : String → Fin n → ℝ) (text : String) :
    match_template encode text [] = none := rfl

/-! ## The `generate_pdf` type dispatch -/

/-- The title chosen by `generate_pdf` from its `doc_type` argument
(`"INVOICE"` / `"SERVICE AGREEMENT"` / `"APPLICATION FORM"`). -/
def generate_pdf_title (doc_type : String) : String :=
  if doc_type = "invoice" then "INVOICE"
  else if doc_type = "agreement" then "SERVICE AGREEMENT"
  else "APPLICATION FORM"

/-- The type-specific section heading appended by `generate_pdf`
(`"Payment Details"` / `"Agreement Terms"` / `"Application Details"`,
the last introducing the generic acknowledgment text). -/
def generate_pdf_section (doc_type : String) : String :=
  if doc_type = "invoice" then "Payment Details"
  else if doc_type = "agreement" then "Agreement Terms"
  else "Application Details"

/-- The `doc_type` argument every call site of `generate_pdf` builds:
`extracted.get("Document_Type", "application").lower()`. -/
def pipelineDocTypeArg (extracted : FieldMap) : String :=
  asciiLower ((dictGet "Document_Type" extracted).getD "application")

/-! ## Claim C10 -/

/-- Claim C10: `generate_pdf` dispatches on exact, case-sensitive equality
with the lowercase tags "invoice" / "agreement"; any other string —
including the capitalized `Document_Type` values `extract_data` itself
produces — receives the Application layout (title "APPLICATION FORM" and
the generic acknowledgment section); and the argument built at every
call site is lowercased, so it is always one of the three lowercase
tags. -/
theorem c10_pdf_type_dispatch :
    (∀ s : String, s ≠ "invoice" → s ≠ "agreement" →
      generate_pdf_title s = "APPLICATION FORM" ∧
      generate_pdf_section s = "Application Details") ∧
    generate_pdf_title "Invoice" = "APPLICATION FORM" ∧
    generate_pdf_title "Agreement" = "APPLICATION FORM" ∧
    (∀ (text : String) (ents : List Entity) (today : String),
      pipelineDocTypeArg (extract_data text ents today) = "invoice" ∨
      pipelineDocTypeArg (extract_data text ents today) = "agreement" ∨
      pipelineDocTypeArg (extract_data text ents today) = "application") := by
  refine ⟨?_, by decide, by decide, ?_⟩
  · intro s h1 h2
    constructor <;> simp [generate_pdf_title, generate_pdf_section, h1, h2]
  · intro text ents today
    unfold pipelineDocTypeArg extract_data
    rw [dictGet_DT_docTypePhase]
    by_cases h1 : invoiceCond text = true
    · simp only [h1, if_true, Option.getD_some]
      left
      decide
    · rw [Bool.not_eq_true] at h1
      by_cases h2 : agreementCond text = true
      · simp only [h1, h2, Bool.false_eq_true, if_false, if_true, Option.getD_some]
        right; left
        decide
      · rw [Bool.not_eq_true] at h2
        simp only [h1, h2, Bool.false_eq_true, if_false, Option.getD_some]
        right; right
        decide

/-- Witness for C10: the capitalized tag "Invoice" and an arbitrary
unrecognized string both receive the Application layout. -/
theorem c10_pdf_type_dispatch_witness :
    generate_pdf_title "Invoice" = "APPLICATION FORM" ∧
    generate_pdf_section "receipt" = "Application Details" :=
  ⟨c10_pdf_type_dispatch.2.1,
    (c10_pdf_type_dispatch.1 "receipt" (by decide) (by decide)).2⟩

/-! ## JSON serialization of the FieldMap

`json.dump(extracted, f, indent=4)` followed by `json.load` on the other
side.  The program only ever serializes a dict of string keys and string
values, so the model covers exactly that shape: `jsonDump` reproduces
Python's `ensure_ascii=True` string escaping and `indent=4` layout;
`jsonLoad` is the strict decoder on such objects (whitespace skipping,
the nine escapes, `\uXXXX` with surrogate-pair recombination, duplicate
keys resolved last-value-wins as a Python dict does).  A lone surrogate
escape is rejected by the model (Lean's `Char` cannot carry it, and
`jsonDump` never writes one). -/

/-- Lowercase hex digits as written by Python's `'\\u%04x'` format. -/
def hexDigit (d : Nat) : Char :=
  match d with
  | 0 => '0' | 1 => '1' | 2 => '2' | 3 => '3' | 4 => '4'
  | 5 => '5' | 6 => '6' | 7 => '7' | 8 => '8' | 9 => '9'
  | 10 => 'a' | 11 => 'b' | 12 => 'c' | 13 => 'd' | 14 => 'e'
  | _ => 'f'

/-- Value of one hex digit (either case accepted by the decoder). -/
def hexVal (c : Char) : Option Nat :=
  if '0' ≤ c ∧ c ≤ '9' then some (c.toNat - 48)
  else if 'a' ≤ c ∧ c ≤ 'f' then some (c.toNat - 87)
  else if 'A' ≤ c ∧ c ≤ 'F' then some (c.toNat - 55)
  else none

/-- Value of a four-hex-digit group. -/
def hex4 (a b c d : Char) : Option Nat :=
  match hexVal a, hexVal b, hexVal c, hexVal d with
  | some x, some y, some z, some w => some (4096 * x + 256 * y + 16 * z + w)
  | _, _, _, _ => none

/-- The four hex digits of `n < 0x10000`, most significant first. -/
def hexq (n : Nat) : List Char :=
  [hexDigit (n / 4096 % 16), hexDigit (n / 256 % 16),
   hexDigit (n / 16 % 16), hexDigit (n % 16)]

/-- Escape `\uXXXX` for `n < 0x10000`. -/
def uEsc (n : Nat) : List Char := '\\' :: 'u' :: hexq n

/-- Python `json.dump`'s escaping of one character with `ensure_ascii`:
seven short escapes, printable ASCII (`0x20`–`0x7E`) literal, `\uXXXX`
otherwise, as a surrogate pair above `0xFFFF`. -/
def escChar (c : Char) : List Char :=
  if c = '"' then ['\\', '"']
  else if c = '\\' then ['\\', '\\']
  else if c = '\x08' then ['\\', 'b']
  else if c = '\x0c' then ['\\', 'f']
  else if c = '\n' then ['\\', 'n']
  else if c = '\r' then ['\\', 'r']
  else if c = '\t' then ['\\', 't']
  else if 0x20 ≤ c.toNat ∧ c.toNat ≤ 0x7e then [c]
  else if c.toNat < 0x10000 then uEsc c.toNat
  else uEsc (0xd800 + (c.toNat - 0x10000) / 0x400) ++
    uEsc (0xdc00 + (c.toNat - 0x10000) % 0x400)

/-- JSON string literal for `s`. -/
def escString (s : String) : List Char :=
  '"' :: s.data.flatMap escChar ++ ['"']

/-- One `"key": "value"` member. -/
def dumpEntry (p : String × String) : List Char :=
  escString p.1 ++ ':' :: ' ' :: escString p.2

/-- The members as `indent=4` lays them out: four spaces of indentation
before each member, `",\n"` between members. -/
def dumpEntries : List (String × String) → List Char
  | [] => []
  | [p] => ' ' :: ' ' :: ' ' :: ' ' :: dumpEntry p
  | p :: ps => (' ' :: ' ' :: ' ' :: ' ' :: dumpEntry p) ++ ',' :: '\n' :: dumpEntries ps

/-- Model of `json.dump(extracted, f, indent=4)` for a string-valued dict. -/
def jsonDump (m : FieldMap) : String :=
  match m with
  | [] => "{}"
  | _ => String.mk ('{' :: '\n' :: dumpEntries m ++ ['\n', '}'])

/-- JSON whitespace skipping. -/
def skipWs : List Char → List Char
  | [] => []
  | c :: cs => if c = ' ' ∨ c = '\t' ∨ c = '\n' ∨ c = '\r' then skipWs cs else c :: cs

/-- Decode one simple backslash escape. -/
def unescSimple (c : Char) : Option Char :=
  if c = '"' then some '"'
  else if c = '\\' then some '\\'
  else if c = '/' then some '/'
  else if c = 'b' then some '\x08'
  else if c = 'f' then some '\x0c'
  else if c = 'n' then some '\n'
  else if c = 'r' then some '\r'
  else if c = 't' then some '\t'
  else none

/-- Take two characters off the input. -/
def uncons2 : List Char → Option (Char × Char × List Char)
  | a :: b :: r => some (a, b, r)
  | _ => none

/-- Read a four-hex-digit group off the input. -/
def hex4At (s : List Char) : Option (Nat × List Char) :=
  match uncons2 s with
  | none => none
  | some (g1, g2, r1) =>
    match uncons2 r1 with
    | none => none
    | some (g3, g4, r2) =>
      match hex4 g1 g2 g3 g4 with
      | none => none
      | some n => some (n, r2)

/-- After a high surrogate `\uXXXX` (value `n`), decode the mandatory
low-surrogate escape that must follow and recombine the pair. -/
def decodeLowSur (n : Nat) (r : List Char) : Option (Char × List Char) :=
  match uncons2 r with
  | none => none
  | some (b1, b2, r1) =>
    if b1 = '\\' ∧ b2 = 'u' then
      match hex4At r1 with
      | none => none
      | some p =>
        if 0xdc00 ≤ p.1 ∧ p.1 ≤ 0xdfff then
          some (Char.ofNat (0x10000 + (n - 0xd800) * 0x400 + (p.1 - 0xdc00)), p.2)
        else none
    else none

/-- Interpret the value of a `\uXXXX` group: scalar, high surrogate
(expects its partner), or rejected lone low surrogate. -/
def decodeUVal (n : Nat) (rest3 : List Char) : Option (Char × List Char) :=
  if n < 0xd800 ∨ 0xdfff < n then some (Char.ofNat n, rest3)
  else if n < 0xdc00 then decodeLowSur n rest3
  else none

/-- Decode a `\uXXXX` escape standing after the `\u`. -/
def decodeU (r : List Char) : Option (Char × List Char) :=
  match hex4At r with
  | none => none
  | some p => decodeUVal p.1 p.2

/-- Decode the escape sequence standing right after a backslash: the
decoded character and the remaining input.  `\uXXXX` surrogate pairs are
recombined as Python's decoder does. -/
def decodeEsc : List Char → Option (Char × List Char)
  | [] => none
  | e :: rest2 =>
    if e = 'u' then decodeU rest2
    else
      match unescSimple e with
      | some u => some (u, rest2)
      | none => none

theorem uncons2_len {s : List Char} {p : Char × Char × List Char}
    (h : uncons2 s = some p) : p.2.2.length + 2 = s.length := by
  unfold uncons2 at h
  repeat' split at h
  all_goals first
    | (cases h; simp)
    | cases h

theorem hex4At_len {s : List Char} {p : Nat × List Char}
    (h : hex4At s = some p) : p.2.length + 4 = s.length := by
  unfold hex4At at h
  split at h
  · cases h
  · rename_i a b r1 heq1
    split at h
    · cases h
    · rename_i c d r2 heq2
      split at h
      · cases h
      · cases h
        have l1 := uncons2_len heq1
        have l2 := uncons2_len heq2
        simp at l1 l2 ⊢
        omega

theorem decodeLowSur_le {n : Nat} {r : List Char} {du : Char × List Char}
    (h : decodeLowSur n r = some du) : du.2.length ≤ r.length := by
  unfold decodeLowSur at h
  split at h
  · cases h
  · rename_i b1 b2 r1 heq1
    split at h
    · split at h
      · cases h
      · rename_i p2 heq2
        by_cases hrange : 0xdc00 ≤ p2.1 ∧ p2.1 ≤ 0xdfff
        · rw [if_pos hrange] at h
          have hdu := Option.some.inj h
          have l1 := uncons2_len heq1
          have l2 := hex4At_len heq2
          rw [← hdu]
          simp at l1 ⊢
          omega
        · rw [if_neg hrange] at h
          cases h
    · cases h

theorem decodeUVal_le {n : Nat} {r : List Char} {du : Char × List Char}
    (h : decodeUVal n r = some du) : du.2.length ≤ r.length := by
  unfold decodeUVal at h
  split at h
  · cases h
    simp
  · split at h
    · exact decodeLowSur_le h
    · cases h

theorem decodeU_le {r : List Char} {du : Char × List Char}
    (h : decodeU r = some du) : du.2.length ≤ r.length := by
  unfold decodeU at h
  split at h
  · cases h
  · rename_i p heq
    have l1 := hex4At_len heq
    have l2 := decodeUVal_le h
    omega

theorem decodeEsc_le (rest : List Char) (du : Char × List Char)
    (h : decodeEsc rest = some du) : du.2.length ≤ rest.length := by
  unfold decodeEsc at h
  repeat' split at h
  all_goals try cases h
  · rename_i e rest2 _
    have := decodeU_le h
    simp
    omega
  · simp

/-- Body of a JSON string literal after the opening quote: the decoded
characters and the input after the closing quote.  Every step consumes
at least one input character, so the explicit fuel is inexhaustible as
long as it exceeds the input length; callers pass `length + 1`. -/
def parseJStringBody : Nat → List Char → Option (List Char × List Char)
  | 0, _ => none
  | _ + 1, [] => none
  | fuel + 1, c :: rest =>
    if c = '"' then some ([], rest)
    else if c = '\\' then
      match decodeEsc rest with
      | some du =>
        match parseJStringBody fuel du.2 with
        | some pr => some (du.1 :: pr.1, pr.2)
        | none => none
      | none => none
    else if c.toNat < 32 then none
    else
      match parseJStringBody fuel rest with
      | some pr => some (c :: pr.1, pr.2)
      | none => none

/-- A JSON string literal: opening quote then body. -/
def parseJString (s : List Char) : Option (List Char × List Char) :=
  match s with
  | [] => none
  | c :: rest => if c = '"' then parseJStringBody (rest.length + 1) rest else none

/-- One `"key": "value"` member: key string, whitespace, colon,
whitespace, value string; returns the pair and the input after the
value. -/
def parseMember (input : List Char) : Option ((String × String) × List Char) :=
  match parseJString input with
  | none => none
  | some (k, r1) =>
    match skipWs r1 with
    | [] => none
    | c2 :: r2 =>
      if c2 = ':' then
        match parseJString (skipWs r2) with
        | none => none
        | some (v, r3) => some ((String.mk k, String.mk v), r3)
      else none

/-- Member loop of the object decoder, standing on the opening quote of a
key.  Members accumulate as into a Python dict (`dictSet`: duplicate
keys keep the first position, last value). -/
def parseMembersAux : Nat → List Char → FieldMap → Option (FieldMap × List Char)
  | 0, _, _ => none
  | fuel + 1, input, acc =>
    match parseMember input with
    | none => none
    | some (kv, r3) =>
      match skipWs r3 with
      | [] => none
      | c3 :: r4 =>
        if c3 = ',' then
          parseMembersAux fuel (skipWs r4) (dictSet kv.1 kv.2 acc)
        else if c3 = '}' then some (dictSet kv.1 kv.2 acc, r4)
        else none

/-- Model of `json.load` restricted to objects with string values (the only JSON
the program writes); `none` exactly where the Python decoder raises. -/
def jsonLoad (s : String) : Option FieldMap :=
  match skipWs s.data with
  | [] => none
  | c :: rest =>
    if c = '{' then
      match skipWs rest with
      | [] => none
      | c2 :: r2 =>
        if c2 = '}' then (if skipWs r2 = [] then some [] else none)
        else
          match parseMembersAux (s.data.length + 1) (c2 :: r2) [] with
          | some (m, r) => if skipWs r = [] then some m else none
          | none => none
    else none

example : jsonLoad (jsonDump [("Date", "May 1, 2025"), ("Document_Type", "Invoice")]) =
    some [("Date", "May 1, 2025"), ("Document_Type", "Invoice")] := by decide

example : jsonLoad (jsonDump [("Name", "Zoë \"Z\" Neil\n\\ ♥")]) =
    some [("Name", "Zoë \"Z\" Neil\n\\ ♥")] := by decide

example : jsonLoad (jsonDump []) = some [] := by decide

example : jsonLoad (jsonDump [("Name", "𝄞 clef")]) = some [("Name", "𝄞 clef")] := by decide

/-! ## Round-trip: `jsonLoad` inverts `jsonDump` on Nodup-keyed dicts -/

theorem strMk_data (s : String) : String.mk s.data = s := rfl

theorem hexVal_hexDigit (d : Nat) (h : d < 16) : hexVal (hexDigit d) = some d := by
  interval_cases d <;> decide

theorem hex4_uEsc (n : Nat) (h : n < 0x10000) :
    hex4 (hexDigit (n / 4096 % 16)) (hexDigit (n / 256 % 16))
      (hexDigit (n / 16 % 16)) (hexDigit (n % 16)) = some n := by
  have h1 := hexVal_hexDigit (n / 4096 % 16) (Nat.mod_lt _ (by norm_num))
  have h2 := hexVal_hexDigit (n / 256 % 16) (Nat.mod_lt _ (by norm_num))
  have h3 := hexVal_hexDigit (n / 16 % 16) (Nat.mod_lt _ (by norm_num))
  have h4 := hexVal_hexDigit (n % 16) (Nat.mod_lt _ (by norm_num))
  simp only [hex4, h1, h2, h3, h4, Option.some.injEq]
  omega

theorem pjsb_quote (fuel : Nat) (t : List Char) :
    parseJStringBody (fuel + 1) ('"' :: t) = some ([], t) := by
  simp [parseJStringBody]

theorem pjsb_literal {c : Char} (h1 : ¬c = '"') (h2 : ¬c = '\\') (h3 : ¬c.toNat < 32)
    (fuel : Nat) (t : List Char) :
    parseJStringBody (fuel + 1) (c :: t) =
      match parseJStringBody fuel t with
      | some pr => some (c :: pr.1, pr.2)
      | none => none := by
  simp only [parseJStringBody]
  rw [if_neg h1, if_neg h2, if_neg h3]

theorem decodeEsc_simple {e u : Char} (hu : unescSimple e = some u) (hne : ¬e = 'u')
    (t : List Char) : decodeEsc (e :: t) = some (u, t) := by
  simp only [decodeEsc]
  rw [if_neg hne, hu]

theorem pjsb_esc {c : Char} {r t : List Char} (hde : decodeEsc r = some (c, t))
    (fuel : Nat) :
    parseJStringBody (fuel + 1) ('\\' :: r) =
      match parseJStringBody fuel t with
      | some pr => some (c :: pr.1, pr.2)
      | none => none := by
  simp [parseJStringBody, hde]

theorem hex4At_digits (n : Nat) (h : n < 0x10000) (t : List Char) :
    hex4At (hexq n ++ t) = some (n, t) := by
  simp only [hexq, List.cons_append, List.nil_append, hex4At, uncons2]
  simp only [hex4_uEsc n h]

theorem decodeEsc_u (r : List Char) : decodeEsc ('u' :: r) = decodeU r := by
  simp [decodeEsc]

theorem decodeEsc_uEsc (n : Nat) (hlt : n < 0x10000) (hval : n < 0xd800 ∨ 0xdfff < n)
    (t : List Char) : decodeEsc ('u' :: (hexq n ++ t)) = some (Char.ofNat n, t) := by
  rw [decodeEsc_u]
  simp only [decodeU, hex4At_digits n hlt]
  simp only [decodeUVal]
  rw [if_pos hval]

theorem decodeEsc_pair (a b : Nat) (ha1 : 0xd800 ≤ a) (ha2 : a < 0xdc00)
    (hb1 : 0xdc00 ≤ b) (hb2 : b ≤ 0xdfff) (t : List Char) :
    decodeEsc ('u' :: (hexq a ++ ('\\' :: 'u' :: (hexq b ++ t)))) =
      some (Char.ofNat (0x10000 + (a - 0xd800) * 0x400 + (b - 0xdc00)), t) := by
  rw [decodeEsc_u]
  simp only [decodeU, hex4At_digits a (by omega)]
  simp only [decodeUVal]
  rw [if_neg (by omega), if_pos (by omega)]
  simp only [decodeLowSur, uncons2]
  rw [if_pos ⟨trivial, trivial⟩]
  simp only [hex4At_digits b (by omega)]
  rw [if_pos ⟨hb1, hb2⟩]

theorem char_upper (c : Char) : c.toNat < 0x110000 := by
  have he : c.toNat = c.val.toNat := rfl
  rcases c.valid with h | h
  · omega
  · omega

theorem pjsb_escChar (c : Char) (fuel : Nat) (t : List Char) :
    parseJStringBody (fuel + 1) (escChar c ++ t) =
      match parseJStringBody fuel t with
      | some pr => some (c :: pr.1, pr.2)
      | none => none := by
  by_cases h1 : c = '"'
  · subst h1
    exact pjsb_esc (decodeEsc_simple (by decide) (by decide) t) fuel
  by_cases h2 : c = '\\'
  · subst h2
    exact pjsb_esc (decodeEsc_simple (by decide) (by decide) t) fuel
  by_cases h3 : c = '\x08'
  · subst h3
    exact pjsb_esc (decodeEsc_simple (by decide) (by decide) t) fuel
  by_cases h4 : c = '\x0c'
  · subst h4
    exact pjsb_esc (decodeEsc_simple (by decide) (by decide) t) fuel
  by_cases h5 : c = '\n'
  · subst h5
    exact pjsb_esc (decodeEsc_simple (by decide) (by decide) t) fuel
  by_cases h6 : c = '\r'
  · subst h6
    exact pjsb_esc (decodeEsc_simple (by decide) (by decide) t) fuel
  by_cases h7 : c = '\t'
  · subst h7
    exact pjsb_esc (decodeEsc_simple (by decide) (by decide) t) fuel
  by_cases h8 : 0x20 ≤ c.toNat ∧ c.toNat ≤ 0x7e
  · have hesc : escChar c = [c] := by
      unfold escChar
      rw [if_neg h1, if_neg h2, if_neg h3, if_neg h4, if_neg h5, if_neg h6, if_neg h7,
        if_pos h8]
    rw [hesc, List.singleton_append]
    exact pjsb_literal h1 h2 (by omega) fuel t
  by_cases h9 : c.toNat < 0x10000
  · have hesc : escChar c = uEsc c.toNat := by
      unfold escChar
      rw [if_neg h1, if_neg h2, if_neg h3, if_neg h4, if_neg h5, if_neg h6, if_neg h7,
        if_neg h8, if_pos h9]
    have hval : c.toNat < 0xd800 ∨ 0xdfff < c.toNat := by
      rcases c.valid with h | h
      · exact Or.inl h
      · exact Or.inr h.1
    have hde := decodeEsc_uEsc c.toNat h9 hval t
    have hres := pjsb_esc hde fuel
    rw [Char.ofNat_toNat] at hres
    rw [hesc]
    exact hres
  · have hesc : escChar c =
        uEsc (0xd800 + (c.toNat - 0x10000) / 0x400) ++
          uEsc (0xdc00 + (c.toNat - 0x10000) % 0x400) := by
      unfold escChar
      rw [if_neg h1, if_neg h2, if_neg h3, if_neg h4, if_neg h5, if_neg h6, if_neg h7,
        if_neg h8, if_neg h9]
    have hup := char_upper c
    have hde := decodeEsc_pair (0xd800 + (c.toNat - 0x10000) / 0x400)
      (0xdc00 + (c.toNat - 0x10000) % 0x400)
      (by omega) (by omega) (by omega) (by omega) t
    have harith : 0x10000 + (0xd800 + (c.toNat - 0x10000) / 0x400 - 0xd800) * 0x400 +
        (0xdc00 + (c.toNat - 0x10000) % 0x400 - 0xdc00) = c.toNat := by omega
    rw [harith, Char.ofNat_toNat] at hde
    have hres := pjsb_esc hde fuel
    rw [hesc]
    have hshape : uEsc (0xd800 + (c.toNat - 0x10000) / 0x400) ++
        uEsc (0xdc00 + (c.toNat - 0x10000) % 0x400) ++ t =
        '\\' :: 'u' :: (hexq (0xd800 + (c.toNat - 0x10000) / 0x400) ++
          ('\\' :: 'u' :: (hexq (0xdc00 + (c.toNat - 0x10000) % 0x400) ++ t))) := by
      simp [uEsc, List.append_assoc]
    rw [hshape]
    exact hres

theorem escChar_length_pos (c : Char) : 1 ≤ (escChar c).length := by
  unfold escChar
  repeat' split
  all_goals simp [uEsc, hexq]

theorem length_le_flatMap_escChar (l : List Char) :
    l.length ≤ (l.flatMap escChar).length := by
  induction l with
  | nil => simp
  | cons c l ih =>
    rw [List.flatMap_cons, List.length_append, List.length_cons]
    have := escChar_length_pos c
    omega

theorem pjsb_escList (l : List Char) (t : List Char) :
    ∀ fuel, l.length ≤ fuel →
      parseJStringBody (fuel + 1) (l.flatMap escChar ++ ('"' :: t)) = some (l, t) := by
  induction l with
  | nil =>
    intro fuel _
    rw [List.flatMap_nil, List.nil_append]
    exact pjsb_quote fuel t
  | cons c l ih =>
    intro fuel hfuel
    obtain ⟨f, rfl⟩ : ∃ f, fuel = f + 1 := ⟨fuel - 1, by simp at hfuel; omega⟩
    rw [List.flatMap_cons, List.append_assoc, pjsb_escChar c (f + 1)]
    rw [ih f (by simp at hfuel; omega)]

theorem parseJString_escString (s : String) (t : List Char) :
    parseJString (escString s ++ t) = some (s.data, t) := by
  have hshape : escString s ++ t = '"' :: (s.data.flatMap escChar ++ ('"' :: t)) := by
    simp [escString]
  rw [hshape]
  simp only [parseJString]
  rw [if_pos trivial]
  apply pjsb_escList
  have h1 := length_le_flatMap_escChar s.data
  simp only [List.length_append, List.length_cons]
  omega

theorem skipWs_not {c : Char} (h : ¬(c = ' ' ∨ c = '\t' ∨ c = '\n' ∨ c = '\r'))
    (t : List Char) : skipWs (c :: t) = c :: t := by
  simp only [skipWs]
  rw [if_neg h]

theorem skipWs_ws {c : Char} (h : c = ' ' ∨ c = '\t' ∨ c = '\n' ∨ c = '\r')
    (t : List Char) : skipWs (c :: t) = skipWs t := by
  simp only [skipWs]
  rw [if_pos h]

theorem skipWs_escString (s : String) (t : List Char) :
    skipWs (escString s ++ t) = escString s ++ t := by
  have hshape : escString s ++ t = '"' :: (s.data.flatMap escChar ++ ('"' :: t)) := by
    simp [escString]
  rw [hshape]
  exact skipWs_not (by decide) _

theorem dictSet_append_fresh {k : String} (v : String) {m : FieldMap}
    (h : hasKey k m = false) : dictSet k v m = m ++ [(k, v)] := by
  induction m with
  | nil => rfl
  | cons p rest ih =>
    simp only [hasKey, Bool.or_eq_false_iff] at h
    obtain ⟨h1, h2⟩ := h
    simp only [dictSet]
    rw [if_neg (by simpa using h1), ih h2]
    simp

theorem parseMember_dump (k v : String) (rest : List Char) :
    parseMember (dumpEntry (k, v) ++ rest) = some ((k, v), rest) := by
  have hshape : dumpEntry (k, v) ++ rest =
      escString k ++ (':' :: ' ' :: (escString v ++ rest)) := by
    simp [dumpEntry]
  rw [hshape]
  simp only [parseMember]
  rw [parseJString_escString]
  dsimp only
  rw [skipWs_not (by decide)]
  dsimp only
  rw [if_pos rfl]
  rw [skipWs_ws (by decide), skipWs_escString]
  rw [parseJString_escString]

/-- Proof-side spelling of `jsonDump`'s output from the first key
onwards: one member, then either `",\n    "` and the rest or the final
`"\n}"`. -/
def memTail : FieldMap → List Char
  | [] => ['\n', '}']
  | [p] => dumpEntry p ++ ['\n', '}']
  | p :: ps => dumpEntry p ++ ',' :: '\n' :: ' ' :: ' ' :: ' ' :: ' ' :: memTail ps

theorem dumpEntries_eq (m : FieldMap) (hm : m ≠ []) :
    dumpEntries m ++ ['\n', '}'] = ' ' :: ' ' :: ' ' :: ' ' :: memTail m := by
  induction m with
  | nil => exact absurd rfl hm
  | cons p ps ih =>
    cases ps with
    | nil => simp [dumpEntries, memTail]
    | cons q qs =>
      simp only [dumpEntries, memTail, List.cons_append, List.append_assoc]
      rw [ih (by simp)]

theorem jsonDump_data (m : FieldMap) (hm : m ≠ []) :
    (jsonDump m).data = '{' :: '\n' :: ' ' :: ' ' :: ' ' :: ' ' :: memTail m := by
  cases m with
  | nil => exact absurd rfl hm
  | cons p ps =>
    show ('{' :: '\n' :: dumpEntries (p :: ps) ++ ['\n', '}']) = _
    simp only [List.cons_append]
    rw [dumpEntries_eq (p :: ps) (by simp)]

theorem skipWs_dumpEntry_append (p : String × String) (x : List Char) :
    skipWs (dumpEntry p ++ x) = dumpEntry p ++ x := by
  have hsh : dumpEntry p ++ x = escString p.1 ++ (':' :: ' ' :: (escString p.2 ++ x)) := by
    simp [dumpEntry]
  rw [hsh, skipWs_escString, ← hsh]

theorem skipWs_memTail (q : String × String) (qs : FieldMap) :
    skipWs (memTail (q :: qs)) = memTail (q :: qs) := by
  cases qs <;> simp only [memTail] <;> exact skipWs_dumpEntry_append _ _

theorem head_quote_append (s : String) (t : List Char) :
    ∃ r, escString s ++ t = '"' :: r :=
  ⟨s.data.flatMap escChar ++ ['"'] ++ t, by simp [escString, List.append_assoc]⟩

theorem memTail_head (p : String × String) (ps : FieldMap) :
    ∃ r, memTail (p :: ps) = '"' :: r := by
  cases ps with
  | nil =>
    obtain ⟨r, hr⟩ := head_quote_append p.1 (':' :: ' ' :: (escString p.2 ++ ['\n', '}']))
    refine ⟨r, ?_⟩
    rw [← hr]
    simp [memTail, dumpEntry, List.append_assoc]
  | cons q qs =>
    obtain ⟨r, hr⟩ := head_quote_append p.1
      (':' :: ' ' :: (escString p.2 ++
        (',' :: '\n' :: ' ' :: ' ' :: ' ' :: ' ' :: memTail (q :: qs))))
    refine ⟨r, ?_⟩
    rw [← hr]
    simp [memTail, dumpEntry, List.append_assoc]

theorem dumpEntry_len_pos (p : String × String) : 1 ≤ (dumpEntry p).length := by
  simp [dumpEntry, escString]

theorem memTail_len (m : FieldMap) : m.length ≤ (memTail m).length := by
  induction m with
  | nil => simp [memTail]
  | cons p ps ih =>
    have hp := dumpEntry_len_pos p
    cases ps with
    | nil => simp [memTail]
    | cons q qs =>
      simp only [memTail, List.length_append, List.length_cons] at ih ⊢
      omega

theorem hasKey_false_of_not_mem {k : String} {m : FieldMap}
    (h : k ∉ dictKeys m) : hasKey k m = false := by
  have hne : ¬hasKey k m = true := fun hh => h ((hasKey_iff_mem k m).mp hh)
  simpa using hne

theorem parseMembersAux_dump (m : FieldMap) :
    ∀ (fuel : Nat) (acc : FieldMap), m ≠ [] → m.length ≤ fuel →
      (dictKeys acc ++ dictKeys m).Nodup →
      parseMembersAux fuel (memTail m) acc = some (acc ++ m, []) := by
  induction m with
  | nil =>
    intro _ _ h
    exact absurd rfl h
  | cons p ps ih =>
    intro fuel acc _ hfuel hnd
    obtain ⟨f, rfl⟩ : ∃ f, fuel = f + 1 := ⟨fuel - 1, by simp at hfuel; omega⟩
    obtain ⟨k, v⟩ := p
    have hkfree : hasKey k acc = false := by
      refine hasKey_false_of_not_mem fun hin => ?_
      exact (List.disjoint_of_nodup_append hnd) hin (by simp [dictKeys])
    cases ps with
    | nil =>
      simp only [memTail, parseMembersAux]
      rw [parseMember_dump]
      dsimp only
      rw [skipWs_ws (by decide), skipWs_not (by decide)]
      dsimp only
      rw [if_neg (by decide), if_pos rfl]
      rw [dictSet_append_fresh v hkfree]
    | cons q qs =>
      simp only [memTail]
      rw [show dumpEntry (k, v) ++
          ',' :: '\n' :: ' ' :: ' ' :: ' ' :: ' ' :: memTail (q :: qs) =
          dumpEntry (k, v) ++
            (',' :: '\n' :: ' ' :: ' ' :: ' ' :: ' ' :: memTail (q :: qs)) from rfl]
      simp only [parseMembersAux]
      rw [parseMember_dump]
      dsimp only
      rw [skipWs_not (by decide)]
      dsimp only
      rw [if_pos rfl]
      rw [skipWs_ws (by decide), skipWs_ws (by decide), skipWs_ws (by decide),
        skipWs_ws (by decide), skipWs_ws (by decide), skipWs_memTail]
      rw [dictSet_append_fresh v hkfree]
      rw [ih f (acc ++ [(k, v)]) (by simp) (by simp at hfuel ⊢; omega)
        (by simpa [dictKeys, List.append_assoc] using hnd)]
      rw [List.append_assoc]
      rfl

theorem jsonLoad_jsonDump {m : FieldMap} (hnd : (dictKeys m).Nodup) :
    jsonLoad (jsonDump m) = some m := by
  cases m with
  | nil => decide
  | cons p ps =>
    have hdata := jsonDump_data (p :: ps) (by simp)
    simp only [jsonLoad, hdata]
    rw [skipWs_not (by decide)]
    dsimp only
    rw [if_pos rfl]
    rw [skipWs_ws (by decide), skipWs_ws (by decide), skipWs_ws (by decide),
      skipWs_ws (by decide), skipWs_ws (by decide), skipWs_memTail]
    obtain ⟨r, hr⟩ := memTail_head p ps
    rw [hr]
    dsimp only
    rw [if_neg (by decide)]
    rw [← hr]
    have hlen : (p :: ps).length ≤
        ('{' :: '\n' :: ' ' :: ' ' :: ' ' :: ' ' :: memTail (p :: ps)).length + 1 := by
      have := memTail_len (p :: ps)
      simp only [List.length_cons] at this ⊢
      omega
    rw [parseMembersAux_dump (p :: ps) _ [] (by simp) hlen
      (by simpa [dictKeys] using hnd)]
    dsimp only
    rw [if_pos (show skipWs [] = [] from rfl)]
    simp

/-! ## Claim C9 -/

/-- Claim C9: serializing the FieldMap produced by `extract_data` with
`json.dump` (string keys and values, `ensure_ascii` escaping, `indent=4`
layout) and deserializing with `json.load` reproduces exactly the same
mapping — no key or value is lost and the insertion order is preserved.
The proof goes through `jsonLoad_jsonDump`, valid for any dict with
pairwise-distinct keys, which `extract_data`'s output always is. -/
theorem c9_json_roundtrip (text : String) (ents : List Entity) (today : String) :
    jsonLoad (jsonDump (extract_data text ents today)) =
      some (extract_data text ents today) :=
  jsonLoad_jsonDump (wfKeys_extract_data text ents today).1
